import Mathlib

/-!
# Verification of the Stripe IR core (tile/stripe/stripe.h)

Shallow embedding of the Stripe intermediate representation: the affine
index model (`Index`, `Constraint`), the buffer-access model
(`BufferAccess`, `Refinement`), the statement hierarchy (`Load`, `Store`,
`Constant`, `Intrinsic`, `Special`, `Block`) with its downcast discipline,
and the serialization bridge (`FromProto` / `IntoProto`).

The header under verification declares several operations whose bodies
live in a translation unit that is not part of the provided sources
(`operator==` for the value types, the `Downcast` helpers, `ref_ins` /
`ref_outs`, and `FromProto` / `IntoProto`).  Those are modelled from the
specification, as marked on each definition; everything else is embedded
directly from the header.
-/

/-- Modelled from the spec: `TensorShape` (declared in tile/base/shape.h,
not among the provided sources) is an external collaborator, treated as an
opaque-but-comparable immutable value type with its own equality. -/
structure TensorShape where
  tag : Nat
  deriving DecidableEq, Repr

/-- Modelled from the spec: the C++ `double` values stored in `Constant`
are never interpreted arithmetically by this core, only stored and carried
verbatim; we represent one as its 64-bit pattern. -/
structure CDouble where
  bits : Nat
  deriving DecidableEq, Repr

/-- `enum class StmtKind { Load, Store, Constant, Special, Intrinsic, Block }`. -/
inductive StmtKind where
  | load
  | store
  | constant
  | special
  | intrinsic
  | block
  deriving DecidableEq, Repr

/-- `enum class RefDir { In, Out, InOut }`. -/
inductive RefDir where
  | in_
  | out
  | inOut
  deriving DecidableEq, Repr

/-- `enum class ConstType { Integer, Float }`. -/
inductive ConstType where
  | integer
  | float
  deriving DecidableEq, Repr

/-- `struct Index { std::string name; uint64_t range; int64_t factor; }`. -/
structure Index where
  name : String
  range : Nat
  factor : Int
  deriving DecidableEq, Repr

/-- `Index() : range(0), factor(0) {}` — the default-constructed index;
`name` is a default-constructed `std::string`, i.e. empty. -/
def Index.default : Index := ⟨"", 0, 0⟩

/-- `struct BufferAccess { int64_t offset; std::vector<int64_t> strides; }`. -/
structure BufferAccess where
  offset : Int
  strides : List Int
  deriving DecidableEq, Repr

/-- `BufferAccess() : offset(0) {}` — the default-constructed access;
`strides` is a default-constructed vector, i.e. empty. -/
def BufferAccess.default : BufferAccess := ⟨0, []⟩

/-- `struct Constraint { std::vector<int64_t> lhs; int64_t rhs; }`. -/
structure Constraint where
  lhs : List Int
  rhs : Int
  deriving DecidableEq, Repr

/-- `Constraint() : rhs(0) {}` — the default-constructed constraint;
`lhs` is a default-constructed vector, i.e. empty. -/
def Constraint.default : Constraint := ⟨[], 0⟩

/-- `struct Refinement { RefDir dir; std::string from; std::string into;
BufferAccess access; TensorShape shape; std::string agg_op; }`. -/
structure Refinement where
  dir : RefDir
  from_ : String
  into : String
  access : BufferAccess
  shape : TensorShape
  agg_op : String
  deriving DecidableEq, Repr

/-- `struct Constant : Statement` with fields `name`, `type`, `iconst`,
`fconst`.  The constructor taken determines `type`, and only the matching
value field is initialized; the other is left indeterminate, which we
model with `Option` (`none` = never written). -/
structure Constant where
  name : String
  type : ConstType
  iconst : Option Int
  fconst : Option CDouble
  deriving DecidableEq, Repr

/-- `Constant(const std::string& name, int64_t value)
      : name(name), type(ConstType::Integer), iconst(value) {}`. -/
def Constant.ofInt (name : String) (value : Int) : Constant :=
  ⟨name, ConstType.integer, some value, none⟩

/-- `Constant(const std::string& name, double value)
      : name(name), type(ConstType::Float), fconst(value) {}`. -/
def Constant.ofFloat (name : String) (value : CDouble) : Constant :=
  ⟨name, ConstType.float, none, some value⟩

/-- Modelled from the spec: `operator==(const Index&, const Index&)` is
declared in the header but defined in a translation unit not among the
provided sources; per §4.3 it compares all three fields structurally. -/
def Index.eqB (a b : Index) : Bool :=
  a.name == b.name && a.range == b.range && a.factor == b.factor

/-- Modelled from the spec: `operator==(const Constraint&, const Constraint&)`
(body not among the provided sources) compares `lhs` element-wise — same
length, same elements, same order — and `rhs`; strict structural equality,
never length-padded or algebraic. -/
def Constraint.eqB (a b : Constraint) : Bool :=
  a.lhs == b.lhs && a.rhs == b.rhs

/-- Modelled from the spec: `operator==(const BufferAccess&, const BufferAccess&)`
(body not among the provided sources) compares `offset` and the `strides`
sequence element-wise; strict structural equality. -/
def BufferAccess.eqB (a b : BufferAccess) : Bool :=
  a.offset == b.offset && a.strides == b.strides

/-- `struct Load : Statement { std::string from; std::string into; }`. -/
structure Load where
  from_ : String
  into : String
  deriving DecidableEq, Repr

/-- `struct Store : Statement { std::string from; std::string into; }`. -/
structure Store where
  from_ : String
  into : String
  deriving DecidableEq, Repr

/-- `struct Intrinsic : Statement { std::string name;
std::vector<std::string> inputs; std::vector<std::string> outputs; }`. -/
structure Intrinsic where
  name : String
  inputs : List String
  outputs : List String
  deriving DecidableEq, Repr

/-- `struct Special : Statement { std::string name; params; inputs; outputs; }`. -/
structure Special where
  name : String
  params : List String
  inputs : List String
  outputs : List String
  deriving DecidableEq, Repr

/-- The `Annotation` hierarchy: `BoolAnnotation{value}` is the one built-in
variant; `ext` stands for the open extension point (further pass-defined
variants, identified here only by an abstract tag). -/
inductive Annotation where
  | boolAnn (value : Bool)
  | ext (tag : Nat)
  deriving DecidableEq, Repr

/- The `Statement` hierarchy together with `struct Block : Statement`.
A `Stmt` is one of the six concrete variants; `Block.mk` carries the
header's eight public fields (`name`, `comments`, `idxs`, `constraints`,
`decls`, `refs`, `stmts`, `annotations`), with the two `std::map` fields
embedded as association lists in key order. -/
mutual

inductive Stmt where
  | load (l : Load)
  | store (s : Store)
  | constant (c : Constant)
  | intrinsic (i : Intrinsic)
  | special (sp : Special)
  | block (b : Block)

inductive Block where
  | mk (name comments : String)
       (idxs : List Index)
       (constraints : List Constraint)
       (decls : List (String × TensorShape))
       (refs : List Refinement)
       (stmts : List Stmt)
       (annotations : List (String × Annotation))

end

def Block.name : Block → String
  | .mk n _ _ _ _ _ _ _ => n

def Block.comments : Block → String
  | .mk _ c _ _ _ _ _ _ => c

def Block.idxs : Block → List Index
  | .mk _ _ i _ _ _ _ _ => i

def Block.constraints : Block → List Constraint
  | .mk _ _ _ c _ _ _ _ => c

def Block.decls : Block → List (String × TensorShape)
  | .mk _ _ _ _ d _ _ _ => d

def Block.refs : Block → List Refinement
  | .mk _ _ _ _ _ r _ _ => r

def Block.stmts : Block → List Stmt
  | .mk _ _ _ _ _ _ s _ => s

def Block.annotations : Block → List (String × Annotation)
  | .mk _ _ _ _ _ _ _ a => a

/-- The virtual `kind()` dispatch: each concrete statement class returns
its own tag (`Load::kind`, `Store::kind`, ..., `Block::kind`, all inline in
the header). -/
def Stmt.kind : Stmt → StmtKind
  | .load _ => StmtKind.load
  | .store _ => StmtKind.store
  | .constant _ => StmtKind.constant
  | .intrinsic _ => StmtKind.intrinsic
  | .special _ => StmtKind.special
  | .block _ => StmtKind.block

/-- Modelled from the spec: `Load::Downcast` (body not among the provided
sources) succeeds — returning a handle to the same concrete object — only
when the runtime kind is `Load`, and otherwise fails with a distinct
type-mismatch result, here `none`. -/
def Load.Downcast : Stmt → Option Load
  | .load l => some l
  | _ => none

/-- Modelled from the spec: `Store::Downcast`, as `Load::Downcast`. -/
def Store.Downcast : Stmt → Option Store
  | .store s => some s
  | _ => none

/-- Modelled from the spec: `Constant::Downcast`, as `Load::Downcast`. -/
def Constant.Downcast : Stmt → Option Constant
  | .constant c => some c
  | _ => none

/-- Modelled from the spec: `Intrinsic::Downcast`, as `Load::Downcast`. -/
def Intrinsic.Downcast : Stmt → Option Intrinsic
  | .intrinsic i => some i
  | _ => none

/-- Modelled from the spec: `Special::Downcast`, as `Load::Downcast`. -/
def Special.Downcast : Stmt → Option Special
  | .special sp => some sp
  | _ => none

/-- Modelled from the spec: `Block::Downcast`, as `Load::Downcast`. -/
def Block.Downcast : Stmt → Option Block
  | .block b => some b
  | _ => none

/-- Modelled from the spec: `Block::ref_ins` (body not among the provided
sources) returns the subsequence of `refs` whose `dir` is `In` or `InOut`,
in original order; a pure query. -/
def Block.ref_ins (b : Block) : List Refinement :=
  b.refs.filter fun r => r.dir == RefDir.in_ || r.dir == RefDir.inOut

/-- Modelled from the spec: `Block::ref_outs` returns the subsequence of
`refs` whose `dir` is `Out` or `InOut`, in original order; a pure query. -/
def Block.ref_outs (b : Block) : List Refinement :=
  b.refs.filter fun r => r.dir == RefDir.out || r.dir == RefDir.inOut

/-- Modelled from the spec: the wire schema (`tile/stripe/stripe.pb.h`,
not among the provided sources) is an opaque external format; we mirror it
message-for-message, with enums carried as raw integer tags as on a
protobuf wire.  Wire form of `Index`. -/
structure WireIndex where
  name : String
  range : Nat
  factor : Int
  deriving DecidableEq, Repr

/-- Modelled from the spec: wire form of `BufferAccess`. -/
structure WireBufferAccess where
  offset : Int
  strides : List Int
  deriving DecidableEq, Repr

/-- Modelled from the spec: wire form of `Constraint`. -/
structure WireConstraint where
  lhs : List Int
  rhs : Int
  deriving DecidableEq, Repr

/-- Modelled from the spec: wire form of `Refinement`; `dir` is the raw
enum tag (0 = In, 1 = Out, 2 = InOut). -/
structure WireRefinement where
  dir : Nat
  from_ : String
  into : String
  access : WireBufferAccess
  shape : TensorShape
  agg_op : String
  deriving DecidableEq, Repr

/-- Modelled from the spec: wire form of `Constant`; `typeTag` is the raw
enum tag (0 = Integer, 1 = Float) and both scalar fields are present on
the wire, defaulting to zero when unset. -/
structure WireConstant where
  name : String
  typeTag : Nat
  iconst : Int
  fconst : CDouble
  deriving DecidableEq, Repr

/-- Modelled from the spec: wire form of `Annotation`. -/
inductive WireAnnotation where
  | boolAnn (value : Bool)
  | ext (tag : Nat)
  deriving DecidableEq, Repr

/- Wire forms of `Statement` and `Block` (oneof over the six variants). -/
mutual

inductive WireStmt where
  | load (from_ into : String)
  | store (from_ into : String)
  | constant (c : WireConstant)
  | intrinsic (name : String) (inputs outputs : List String)
  | special (name : String) (params inputs outputs : List String)
  | block (b : WireBlock)

inductive WireBlock where
  | mk (name comments : String)
       (idxs : List WireIndex)
       (constraints : List WireConstraint)
       (decls : List (String × TensorShape))
       (refs : List WireRefinement)
       (stmts : List WireStmt)
       (annotations : List (String × WireAnnotation))

end

def Index.intoProto (i : Index) : WireIndex := ⟨i.name, i.range, i.factor⟩

def WireIndex.fromProto (w : WireIndex) : Index := ⟨w.name, w.range, w.factor⟩

def BufferAccess.intoProto (a : BufferAccess) : WireBufferAccess := ⟨a.offset, a.strides⟩

def WireBufferAccess.fromProto (w : WireBufferAccess) : BufferAccess := ⟨w.offset, w.strides⟩

def Constraint.intoProto (c : Constraint) : WireConstraint := ⟨c.lhs, c.rhs⟩

def WireConstraint.fromProto (w : WireConstraint) : Constraint := ⟨w.lhs, w.rhs⟩

def RefDir.intoProto : RefDir → Nat
  | RefDir.in_ => 0
  | RefDir.out => 1
  | RefDir.inOut => 2

/-- Decoding a raw `RefDir` tag fails on tags outside the enumeration. -/
def decodeRefDir : Nat → Except String RefDir
  | 0 => Except.ok RefDir.in_
  | 1 => Except.ok RefDir.out
  | 2 => Except.ok RefDir.inOut
  | _ => Except.error "unknown RefDir tag"

def Refinement.intoProto (r : Refinement) : WireRefinement :=
  ⟨r.dir.intoProto, r.from_, r.into, r.access.intoProto, r.shape, r.agg_op⟩

def WireRefinement.fromProto (w : WireRefinement) : Except String Refinement :=
  match decodeRefDir w.dir with
  | Except.error e => Except.error e
  | Except.ok d => Except.ok ⟨d, w.from_, w.into, w.access.fromProto, w.shape, w.agg_op⟩

def ConstType.intoProto : ConstType → Nat
  | ConstType.integer => 0
  | ConstType.float => 1

def CDouble.zero : CDouble := ⟨0⟩

def Constant.intoProto (c : Constant) : WireConstant :=
  ⟨c.name, c.type.intoProto, c.iconst.getD 0, c.fconst.getD CDouble.zero⟩

/-- Decoding a constant: the tag selects the variant and only the matching
scalar field is taken up; unknown tags fail. -/
def WireConstant.fromProto (w : WireConstant) : Except String Constant :=
  match w.typeTag with
  | 0 => Except.ok ⟨w.name, ConstType.integer, some w.iconst, none⟩
  | 1 => Except.ok ⟨w.name, ConstType.float, none, some w.fconst⟩
  | _ => Except.error "unknown ConstType tag"

def Annotation.intoProto : Annotation → WireAnnotation
  | Annotation.boolAnn v => WireAnnotation.boolAnn v
  | Annotation.ext t => WireAnnotation.ext t

def WireAnnotation.fromProto : WireAnnotation → Annotation
  | WireAnnotation.boolAnn v => Annotation.boolAnn v
  | WireAnnotation.ext t => Annotation.ext t

/-- Key uniqueness of an association list, the `std::map` invariant. -/
def keysUnique {α : Type} : List (String × α) → Bool
  | [] => true
  | p :: rest => !(rest.any fun q => q.1 == p.1) && keysUnique rest

/-- Decode every element of a list, failing on the first failure. -/
def exceptList {α β : Type} (f : α → Except String β) : List α → Except String (List β)
  | [] => Except.ok []
  | a :: rest =>
    match f a with
    | Except.error e => Except.error e
    | Except.ok b =>
      match exceptList f rest with
      | Except.error e => Except.error e
      | Except.ok bs => Except.ok (b :: bs)

def okB {α : Type} : Except String α → Bool
  | Except.ok _ => true
  | Except.error _ => false

/-- Modelled from the spec: validity of a `Constant` — the type tag is one
of the two variants and exactly the matching value field is meaningful. -/
def Constant.validB (c : Constant) : Bool :=
  match c.type with
  | ConstType.integer => c.iconst.isSome && c.fconst.isNone
  | ConstType.float => c.fconst.isSome && c.iconst.isNone

/- Modelled from the spec: the scope-free structural part of the §3
invariants of a `Block`, checked recursively — every constraint's
coefficient count equals the block's index count, every refinement access
has one stride per block index, no live iteration index has range 0, the
two map fields have unique keys, and every nested statement is itself
valid.  The remaining §3 invariant, lexical name resolution, depends on
the enclosing scope and is modelled by `Block.resolvesB` below; the two
are combined in `Block.validFullB`. -/
mutual

def Stmt.validB : Stmt → Bool
  | Stmt.constant c => Constant.validB c
  | Stmt.block b => Block.validB b
  | _ => true

def Block.validB : Block → Bool
  | Block.mk _ _ idxs cons decls refs stmts anns =>
    ((cons.all fun c => c.lhs.length == idxs.length) &&
     (refs.all fun r => r.access.strides.length == idxs.length) &&
     (idxs.all fun i => i.range != 0) &&
     keysUnique decls && keysUnique anns) &&
    Stmt.listValidB stmts

def Stmt.listValidB : List Stmt → Bool
  | [] => true
  | s :: rest => Stmt.validB s && Stmt.listValidB rest

end

/-- A raw `WireConstant` is well-formed when its tag is a known variant. -/
def WireConstant.wfB (w : WireConstant) : Bool :=
  w.typeTag == 0 || w.typeTag == 1

/-- A raw `WireRefinement` is well-formed when its dir tag is a known variant. -/
def WireRefinement.wfB (w : WireRefinement) : Bool :=
  w.dir == 0 || w.dir == 1 || w.dir == 2

/- Modelled from the spec: the scope-free part of wire well-formedness —
the same §3 structural conditions read off the wire message, plus every
enum tag lying inside its enumeration.  The lexical name-resolution
condition on wire input is modelled by `WireBlock.resolvesW` below; the
two are combined in `WireBlock.wfFullB`. -/
mutual

def WireStmt.wfB : WireStmt → Bool
  | WireStmt.constant c => WireConstant.wfB c
  | WireStmt.block b => WireBlock.wfB b
  | _ => true

def WireBlock.wfB : WireBlock → Bool
  | WireBlock.mk _ _ idxs cons decls refs stmts anns =>
    ((cons.all fun c => c.lhs.length == idxs.length) &&
     (refs.all fun r => r.access.strides.length == idxs.length) &&
     (idxs.all fun i => i.range != 0) &&
     keysUnique decls && keysUnique anns) &&
    (refs.all WireRefinement.wfB && WireStmt.listWfB stmts)

def WireStmt.listWfB : List WireStmt → Bool
  | [] => true
  | s :: rest => WireStmt.wfB s && WireStmt.listWfB rest

end

/- Modelled from the spec: `IntoProto` (body not among the provided
sources) encodes a `Block` tree onto the wire, total over valid blocks. -/
mutual

def Stmt.intoProto : Stmt → WireStmt
  | Stmt.load l => WireStmt.load l.from_ l.into
  | Stmt.store s => WireStmt.store s.from_ s.into
  | Stmt.constant c => WireStmt.constant c.intoProto
  | Stmt.intrinsic i => WireStmt.intrinsic i.name i.inputs i.outputs
  | Stmt.special sp => WireStmt.special sp.name sp.params sp.inputs sp.outputs
  | Stmt.block b => WireStmt.block (Block.intoProto b)

def Block.intoProto : Block → WireBlock
  | Block.mk n cm idxs cons decls refs stmts anns =>
    WireBlock.mk n cm (idxs.map Index.intoProto) (cons.map Constraint.intoProto)
      decls (refs.map Refinement.intoProto) (Stmt.listIntoProto stmts)
      (anns.map fun p => (p.1, Annotation.intoProto p.2))

def Stmt.listIntoProto : List Stmt → List WireStmt
  | [] => []
  | s :: rest => Stmt.intoProto s :: Stmt.listIntoProto rest

end

/- Modelled from the spec: the recursive decode phase of `FromProto`
(body not among the provided sources) — it decodes wire input into a
`Block`, validating the scope-free §3 structural invariants and failing —
never returning a partially-invalid tree — when the input violates one.
The env-dependent lexical name-resolution invariant is checked once over
the whole message by the entry point `FromProto` below. -/
mutual

def WireStmt.fromProto : WireStmt → Except String Stmt
  | WireStmt.load f i => Except.ok (Stmt.load ⟨f, i⟩)
  | WireStmt.store f i => Except.ok (Stmt.store ⟨f, i⟩)
  | WireStmt.constant c =>
    match WireConstant.fromProto c with
    | Except.error e => Except.error e
    | Except.ok c' => Except.ok (Stmt.constant c')
  | WireStmt.intrinsic n ins outs => Except.ok (Stmt.intrinsic ⟨n, ins, outs⟩)
  | WireStmt.special n ps ins outs => Except.ok (Stmt.special ⟨n, ps, ins, outs⟩)
  | WireStmt.block b =>
    match WireBlock.fromProto b with
    | Except.error e => Except.error e
    | Except.ok b' => Except.ok (Stmt.block b')

def WireBlock.fromProto : WireBlock → Except String Block
  | WireBlock.mk n cm idxs cons decls refs stmts anns =>
    if ((cons.all fun c => c.lhs.length == idxs.length) &&
        (refs.all fun r => r.access.strides.length == idxs.length) &&
        (idxs.all fun i => i.range != 0) &&
        keysUnique decls && keysUnique anns) then
      match exceptList WireRefinement.fromProto refs with
      | Except.error e => Except.error e
      | Except.ok refs' =>
        match WireStmt.listFromProto stmts with
        | Except.error e => Except.error e
        | Except.ok stmts' =>
          Except.ok (Block.mk n cm (idxs.map WireIndex.fromProto)
            (cons.map WireConstraint.fromProto) decls refs' stmts'
            (anns.map fun p => (p.1, WireAnnotation.fromProto p.2)))
    else Except.error "malformed stripe IR"

def WireStmt.listFromProto : List WireStmt → Except String (List Stmt)
  | [] => Except.ok []
  | s :: rest =>
    match WireStmt.fromProto s with
    | Except.error e => Except.error e
    | Except.ok s' =>
      match WireStmt.listFromProto rest with
      | Except.error e => Except.error e
      | Except.ok rest' => Except.ok (s' :: rest')

end

def WireBlock.refsW : WireBlock → List WireRefinement
  | WireBlock.mk _ _ _ _ _ r _ _ => r

/-- Modelled from the spec: the buffer/scalar names a statement produces
for later statements of its scope — a `Load`'s local `into` name, a
`Constant`'s name, and an `Intrinsic`'s output names; `Store` and
`Special` write through already-visible names and a nested `Block` scopes
its names internally. -/
def Stmt.produces : Stmt → List String
  | Stmt.load l => [l.into]
  | Stmt.store _ => []
  | Stmt.constant c => [c.name]
  | Stmt.intrinsic i => i.outputs
  | Stmt.special _ => []
  | Stmt.block _ => []

/- Modelled from the spec: the §3 lexical name-resolution invariant —
every name used by a `stmts` entry as a buffer/scalar reference must
resolve to a `refs.into`, a `decls` key, or a name produced by a prior
statement within the same or an enclosing scope.  Used names are a
`Load`'s source, a `Store`'s source and target, an `Intrinsic`'s inputs,
a `Special`'s inputs and outputs, and a nested block's `refs.from` names,
which reference the enclosing scope at the nesting site.  The root
block's own `refs.from` names reference the caller's scope, unknown at
this layer, so they are checked at each nested use site instead. -/
mutual

def Stmt.resolvesB : List String → Stmt → Bool
  | env, Stmt.load l => env.contains l.from_
  | env, Stmt.store s => env.contains s.from_ && env.contains s.into
  | _, Stmt.constant _ => true
  | env, Stmt.intrinsic i => i.inputs.all fun x => env.contains x
  | env, Stmt.special sp =>
    (sp.inputs.all fun x => env.contains x) && (sp.outputs.all fun x => env.contains x)
  | env, Stmt.block b =>
    ((Block.refs b).all fun r => env.contains r.from_) && Block.resolvesB env b

def Block.resolvesB : List String → Block → Bool
  | env, Block.mk _ _ _ _ decls refs stmts _ =>
    Stmt.listResolvesB ((env ++ refs.map fun r => r.into) ++ decls.map fun p => p.1) stmts

def Stmt.listResolvesB : List String → List Stmt → Bool
  | _, [] => true
  | env, s :: rest =>
    Stmt.resolvesB env s && Stmt.listResolvesB (env ++ Stmt.produces s) rest

end

/-- Modelled from the spec: wire-side mirror of `Stmt.produces`. -/
def WireStmt.producesW : WireStmt → List String
  | WireStmt.load _ i => [i]
  | WireStmt.store _ _ => []
  | WireStmt.constant c => [c.name]
  | WireStmt.intrinsic _ _ outs => outs
  | WireStmt.special _ _ _ _ => []
  | WireStmt.block _ => []

/- Modelled from the spec: the §3 lexical name-resolution condition read
off the wire message, mirroring `Stmt.resolvesB` name for name. -/
mutual

def WireStmt.resolvesW : List String → WireStmt → Bool
  | env, WireStmt.load f _ => env.contains f
  | env, WireStmt.store f i => env.contains f && env.contains i
  | _, WireStmt.constant _ => true
  | env, WireStmt.intrinsic _ ins _ => ins.all fun x => env.contains x
  | env, WireStmt.special _ _ ins outs =>
    (ins.all fun x => env.contains x) && (outs.all fun x => env.contains x)
  | env, WireStmt.block b =>
    ((WireBlock.refsW b).all fun r => env.contains r.from_) && WireBlock.resolvesW env b

def WireBlock.resolvesW : List String → WireBlock → Bool
  | env, WireBlock.mk _ _ _ _ decls refs stmts _ =>
    WireStmt.listResolvesW ((env ++ refs.map fun r => r.into) ++ decls.map fun p => p.1) stmts

def WireStmt.listResolvesW : List String → List WireStmt → Bool
  | _, [] => true
  | env, s :: rest =>
    WireStmt.resolvesW env s && WireStmt.listResolvesW (env ++ WireStmt.producesW s) rest

end

/-- Modelled from the spec: the complete §3 validity of a root `Block` —
the recursive structural invariants together with the lexical
name-resolution invariant. -/
def Block.validFullB (b : Block) : Bool :=
  Block.validB b && Block.resolvesB [] b

/-- Modelled from the spec: complete well-formedness of wire input — the
structural and tag conditions together with the lexical name-resolution
condition. -/
def WireBlock.wfFullB (w : WireBlock) : Bool :=
  WireBlock.wfB w && WireBlock.resolvesW [] w

/-- The serialization bridge entry point `FromProto(const proto::Block&)`:
the recursive decode-and-validate phase plus the lexical name-resolution
check of §3, failing with a decode error on any violation. -/
def FromProto (w : WireBlock) : Except String Block :=
  if WireBlock.resolvesW [] w then WireBlock.fromProto w
  else Except.error "unresolved name reference"

/-- The serialization bridge entry point `IntoProto(const Block&)`. -/
def IntoProto : Block → WireBlock := Block.intoProto

/- Collector of a block together with the blocks of all statements nested
beneath it, used to state recursive field-preservation properties. -/
mutual

def Stmt.blocksIn : Stmt → List Block
  | Stmt.block b => Block.allBlocks b
  | _ => []

def Block.allBlocks : Block → List Block
  | Block.mk n cm idxs cons decls refs stmts anns =>
    Block.mk n cm idxs cons decls refs stmts anns :: Stmt.listBlocksIn stmts

def Stmt.listBlocksIn : List Stmt → List Block
  | [] => []
  | s :: rest => Stmt.blocksIn s ++ Stmt.listBlocksIn rest

end

/-- C6: Two `Index` values are equal iff all three fields `name`, `range`
and `factor` are equal; `Index("i",4,1) == Index("i",4,1)` holds,
`Index("i",4,1) == Index("i",4,2)` does not, and degenerate ranges 0 and 1
go through the same field-wise rule with no special-casing. -/
theorem index_eq_structural :
    (∀ a b : Index,
      Index.eqB a b = true ↔ a.name = b.name ∧ a.range = b.range ∧ a.factor = b.factor) ∧
    Index.eqB ⟨"i", 4, 1⟩ ⟨"i", 4, 1⟩ = true ∧
    Index.eqB ⟨"i", 4, 1⟩ ⟨"i", 4, 2⟩ = false ∧
    Index.eqB ⟨"d", 0, 3⟩ ⟨"d", 0, 3⟩ = true ∧
    Index.eqB ⟨"d", 1, 3⟩ ⟨"d", 0, 3⟩ = false := by
  refine ⟨fun a b => ?_, by decide, by decide, by decide, by decide⟩
  simp [Index.eqB, and_assoc]

/-- C5: Two `Constraint` values are equal iff their `lhs` vectors are equal
element-wise (same length, same elements in order) and their `rhs` are
equal; a trailing zero still breaks equality, and algebraically equivalent
but differently written constraints are unequal. -/
theorem constraint_eq_structural :
    (∀ a b : Constraint,
      Constraint.eqB a b = true ↔ a.lhs = b.lhs ∧ a.rhs = b.rhs) ∧
    Constraint.eqB ⟨[1], 3⟩ ⟨[1], 3⟩ = true ∧
    Constraint.eqB ⟨[1], 3⟩ ⟨[1, 0], 3⟩ = false ∧
    Constraint.eqB ⟨[2, 4], 6⟩ ⟨[1, 2], 3⟩ = false := by
  refine ⟨fun a b => ?_, by decide, by decide, by decide⟩
  simp [Constraint.eqB]

/-- C7: Two `BufferAccess` values are equal iff their offsets are equal and
their strides vectors are equal element-wise in order; `{0,[1,2]}` equals
`{0,[1,2]}` and differs from `{0,[2,1]}`. -/
theorem buffer_access_eq_structural :
    (∀ a b : BufferAccess,
      BufferAccess.eqB a b = true ↔ a.offset = b.offset ∧ a.strides = b.strides) ∧
    BufferAccess.eqB ⟨0, [1, 2]⟩ ⟨0, [1, 2]⟩ = true ∧
    BufferAccess.eqB ⟨0, [1, 2]⟩ ⟨0, [2, 1]⟩ = false := by
  refine ⟨fun a b => ?_, by decide, by decide⟩
  simp [BufferAccess.eqB]

/-- C8: A `Constant` built from an integer has type `Integer`, `iconst`
equal to the given value and an untouched `fconst`; one built from a
double has type `Float`, `fconst` equal to the given value and an
untouched `iconst`; and every constant's type tag is `Integer` or `Float`. -/
theorem constant_construction :
    (∀ (name : String) (v : Int),
      (Constant.ofInt name v).name = name ∧
      (Constant.ofInt name v).type = ConstType.integer ∧
      (Constant.ofInt name v).iconst = some v ∧
      (Constant.ofInt name v).fconst = none) ∧
    (∀ (name : String) (v : CDouble),
      (Constant.ofFloat name v).name = name ∧
      (Constant.ofFloat name v).type = ConstType.float ∧
      (Constant.ofFloat name v).fconst = some v ∧
      (Constant.ofFloat name v).iconst = none) ∧
    (∀ c : Constant, c.type = ConstType.integer ∨ c.type = ConstType.float) := by
  refine ⟨fun name v => ⟨rfl, rfl, rfl, rfl⟩, fun name v => ⟨rfl, rfl, rfl, rfl⟩, fun c => ?_⟩
  cases c.type
  · exact Or.inl rfl
  · exact Or.inr rfl

/-- C10: Default construction zero-initializes every primitive value type:
`Index()` has empty name, range 0 and factor 0; `BufferAccess()` has
offset 0 and empty strides; `Constraint()` has empty lhs and rhs 0. -/
theorem default_construction_zero :
    Index.default.name = "" ∧ Index.default.range = 0 ∧ Index.default.factor = 0 ∧
    BufferAccess.default.offset = 0 ∧ BufferAccess.default.strides = [] ∧
    Constraint.default.lhs = [] ∧ Constraint.default.rhs = 0 :=
  ⟨rfl, rfl, rfl, rfl, rfl, rfl, rfl⟩

/-- C2: For every statement `s` of runtime kind `K`, the downcast of
variant `K` succeeds and hands back the very concrete object (so its
fields are `s`'s fields), and the downcast of every other variant fails
with the type-mismatch result instead of reinterpreting the object. -/
theorem downcast_soundness :
    ∀ s : Stmt,
      ((Load.Downcast s).isSome ↔ s.kind = StmtKind.load) ∧
      ((Store.Downcast s).isSome ↔ s.kind = StmtKind.store) ∧
      ((Constant.Downcast s).isSome ↔ s.kind = StmtKind.constant) ∧
      ((Intrinsic.Downcast s).isSome ↔ s.kind = StmtKind.intrinsic) ∧
      ((Special.Downcast s).isSome ↔ s.kind = StmtKind.special) ∧
      ((Block.Downcast s).isSome ↔ s.kind = StmtKind.block) ∧
      (∀ l, Load.Downcast s = some l ↔ s = Stmt.load l) ∧
      (∀ st, Store.Downcast s = some st ↔ s = Stmt.store st) ∧
      (∀ c, Constant.Downcast s = some c ↔ s = Stmt.constant c) ∧
      (∀ i, Intrinsic.Downcast s = some i ↔ s = Stmt.intrinsic i) ∧
      (∀ sp, Special.Downcast s = some sp ↔ s = Stmt.special sp) ∧
      (∀ b, Block.Downcast s = some b ↔ s = Stmt.block b) := by
  intro s
  cases s <;>
    simp [Stmt.kind, Load.Downcast, Store.Downcast, Constant.Downcast,
      Intrinsic.Downcast, Special.Downcast, Block.Downcast, eq_comm]

/-- C4: `ref_ins` returns exactly the refinements of `refs` whose `dir` is
`In` or `InOut` and `ref_outs` exactly those whose `dir` is `Out` or
`InOut`, each as a subsequence of `refs` (relative order preserved); both
are pure queries on `b`. -/
theorem ref_partition :
    ∀ b : Block,
      (∀ r : Refinement,
        r ∈ b.ref_ins ↔ r ∈ b.refs ∧ (r.dir = RefDir.in_ ∨ r.dir = RefDir.inOut)) ∧
      (∀ r : Refinement,
        r ∈ b.ref_outs ↔ r ∈ b.refs ∧ (r.dir = RefDir.out ∨ r.dir = RefDir.inOut)) ∧
      List.Sublist b.ref_ins b.refs ∧ List.Sublist b.ref_outs b.refs := by
  intro b
  refine ⟨fun r => ?_, fun r => ?_, List.filter_sublist _, List.filter_sublist _⟩
  · simp [Block.ref_ins, List.mem_filter]
  · simp [Block.ref_outs, List.mem_filter]

theorem index_round (i : Index) : WireIndex.fromProto (Index.intoProto i) = i := rfl

theorem index_list_round (l : List Index) :
    (l.map Index.intoProto).map WireIndex.fromProto = l := by
  induction l with
  | nil => rfl
  | cons a t ih => simp [index_round, ih]

theorem constraint_round (c : Constraint) : WireConstraint.fromProto (Constraint.intoProto c) = c := rfl

theorem constraint_list_round (l : List Constraint) :
    (l.map Constraint.intoProto).map WireConstraint.fromProto = l := by
  induction l with
  | nil => rfl
  | cons a t ih => simp [constraint_round, ih]

theorem annotation_round (a : Annotation) :
    WireAnnotation.fromProto a.intoProto = a := by
  cases a <;> rfl

theorem annotation_list_round (l : List (String × Annotation)) :
    ((l.map fun p => (p.1, Annotation.intoProto p.2)).map
      fun p => (p.1, WireAnnotation.fromProto p.2)) = l := by
  induction l with
  | nil => rfl
  | cons a t ih => simp [annotation_round, ih]

theorem refinement_round (r : Refinement) :
    WireRefinement.fromProto (Refinement.intoProto r) = Except.ok r := by
  rcases r with ⟨d, f, i, a, s, g⟩
  cases d <;> rfl

theorem refs_round (l : List Refinement) :
    exceptList WireRefinement.fromProto (l.map Refinement.intoProto) = Except.ok l := by
  induction l with
  | nil => rfl
  | cons r t ih => simp [exceptList, refinement_round, ih]

theorem constant_round (c : Constant) (h : Constant.validB c = true) :
    WireConstant.fromProto (Constant.intoProto c) = Except.ok c := by
  rcases c with ⟨n, ty, ic, fc⟩
  cases ty <;> simp [Constant.validB] at h <;>
    rcases ic with _ | iv <;> rcases fc with _ | fv <;>
    simp_all [Constant.intoProto, WireConstant.fromProto, ConstType.intoProto]

theorem any_key_map_snd {α β : Type} (g : α → β) (t : List (String × α)) (k : String) :
    ((t.map fun p => (p.1, g p.2)).any fun q => q.1 == k) = t.any fun q => q.1 == k := by
  induction t with
  | nil => rfl
  | cons q r ih => simp [ih]

theorem keysUnique_map_snd {α β : Type} (g : α → β) (l : List (String × α)) :
    keysUnique (l.map fun p => (p.1, g p.2)) = keysUnique l := by
  induction l with
  | nil => rfl
  | cons p t ih => simp [keysUnique, ih, any_key_map_snd]

mutual

theorem stmtRoundAux : (s : Stmt) → Stmt.validB s = true →
    WireStmt.fromProto (Stmt.intoProto s) = Except.ok s
  | Stmt.load l, _ => rfl
  | Stmt.store st, _ => rfl
  | Stmt.intrinsic i, _ => rfl
  | Stmt.special sp, _ => rfl
  | Stmt.constant c, h => by
    have hc : Constant.validB c = true := by simpa [Stmt.validB] using h
    simp [Stmt.intoProto, WireStmt.fromProto, constant_round c hc]
  | Stmt.block b, h => by
    have hb : Block.validB b = true := by simpa [Stmt.validB] using h
    simp [Stmt.intoProto, WireStmt.fromProto, blockRoundAux b hb]

theorem blockRoundAux : (b : Block) → Block.validB b = true →
    WireBlock.fromProto (Block.intoProto b) = Except.ok b
  | Block.mk n cm idxs cons decls refs stmts anns, h => by
    simp only [Block.validB, Bool.and_eq_true, and_assoc] at h
    obtain ⟨h1, h2, h3, h4, h5, h6⟩ := h
    simp only [List.all_eq_true, beq_iff_eq, bne_iff_ne, ne_eq] at h1 h2 h3
    simp [Block.intoProto, WireBlock.fromProto, List.all_map, Function.comp,
      Constraint.intoProto, Refinement.intoProto, BufferAccess.intoProto,
      Index.intoProto, keysUnique_map_snd, h1, h2, h3, h4, h5,
      refs_round, stmtListRoundAux stmts h6, index_list_round,
      constraint_list_round, annotation_list_round]
    rw [if_pos ⟨⟨h1, h2⟩, h3⟩]
    simp [← List.map_map, index_list_round, constraint_list_round, annotation_list_round]

theorem stmtListRoundAux : (ss : List Stmt) → Stmt.listValidB ss = true →
    WireStmt.listFromProto (Stmt.listIntoProto ss) = Except.ok ss
  | [], _ => rfl
  | s :: rest, h => by
    simp only [Stmt.listValidB, Bool.and_eq_true] at h
    simp [Stmt.listIntoProto, WireStmt.listFromProto,
      stmtRoundAux s h.1, stmtListRoundAux rest h.2]

end

theorem all_congrB {α : Type} (l : List α) (f g : α → Bool) (h : ∀ a, f a = g a) :
    l.all f = l.all g := by
  induction l <;> simp_all

theorem wconst_fromProto_valid (w : WireConstant) (c : Constant)
    (h : WireConstant.fromProto w = Except.ok c) : Constant.validB c = true := by
  unfold WireConstant.fromProto at h
  split at h
  · cases h; rfl
  · cases h; rfl
  · simp at h

theorem wconst_okB (w : WireConstant) :
    okB (WireConstant.fromProto w) = WireConstant.wfB w := by
  rcases w with ⟨n, tag, ic, fc⟩
  rcases tag with _ | (_ | t) <;> rfl

theorem wref_okB (w : WireRefinement) :
    okB (WireRefinement.fromProto w) = WireRefinement.wfB w := by
  rcases w with ⟨d, f, i, a, s, g⟩
  rcases d with _ | (_ | (_ | t)) <;> rfl

theorem wref_fromProto_strides (w : WireRefinement) (r : Refinement)
    (h : WireRefinement.fromProto w = Except.ok r) :
    r.access.strides.length = w.access.strides.length := by
  unfold WireRefinement.fromProto at h
  split at h
  · simp at h
  · cases h; rfl

theorem exceptList_okB {α β : Type} (f : α → Except String β) (l : List α) :
    okB (exceptList f l) = l.all fun a => okB (f a) := by
  induction l with
  | nil => rfl
  | cons a t ih =>
    simp only [exceptList, List.all_cons, ← ih]
    cases f a with
    | error e => simp [okB]
    | ok b =>
      cases exceptList f t with
      | error e => simp [okB]
      | ok bs => simp [okB]

theorem exceptList_refs_all (l : List WireRefinement) (l' : List Refinement) (m : Nat)
    (h : exceptList WireRefinement.fromProto l = Except.ok l') :
    (l'.all fun r => r.access.strides.length == m) =
      l.all fun w => w.access.strides.length == m := by
  induction l generalizing l' with
  | nil =>
    simp only [exceptList] at h
    cases h; rfl
  | cons a t ih =>
    simp only [exceptList] at h
    split at h
    · simp at h
    · split at h
      · simp at h
      · cases h
        rename_i x1 b hb x2 bs hbs
        simp [List.all_cons, ih bs hbs, wref_fromProto_strides a b hb]

mutual

theorem wireStmtFromOkValid : (w : WireStmt) → (s : Stmt) →
    WireStmt.fromProto w = Except.ok s → Stmt.validB s = true
  | WireStmt.load f i, _, h => by cases h; rfl
  | WireStmt.store f i, _, h => by cases h; rfl
  | WireStmt.intrinsic n ins outs, _, h => by cases h; rfl
  | WireStmt.special n ps ins outs, _, h => by cases h; rfl
  | WireStmt.constant c, s, h => by
    simp only [WireStmt.fromProto] at h
    split at h
    · simp at h
    · cases h
      rename_i x1 c' hc'
      simpa [Stmt.validB] using wconst_fromProto_valid c c' hc'
  | WireStmt.block b, s, h => by
    simp only [WireStmt.fromProto] at h
    split at h
    · simp at h
    · cases h
      rename_i x1 b' hb'
      simpa [Stmt.validB] using wireBlockFromOkValid b b' hb'

theorem wireBlockFromOkValid : (w : WireBlock) → (b : Block) →
    WireBlock.fromProto w = Except.ok b → Block.validB b = true
  | WireBlock.mk n cm idxs cons decls refs stmts anns, b, h => by
    simp only [WireBlock.fromProto] at h
    split at h
    case isFalse => simp at h
    case isTrue hcond =>
      simp only [Bool.and_eq_true, and_assoc] at hcond
      obtain ⟨c1, c2, c3, c4, c5⟩ := hcond
      split at h
      · simp at h
      · split at h
        · simp at h
        · cases h
          rename_i x1 refs' href x2 stmts' hstmts
          have hs := wireStmtListFromOkValid stmts stmts' hstmts
          simp only [Block.validB, Bool.and_eq_true, and_assoc]
          refine ⟨?_, ?_, ?_, c4, ?_, hs⟩
          · simpa [List.all_map, Function.comp, WireConstraint.fromProto,
              List.length_map] using c1
          · rw [show ((idxs.map WireIndex.fromProto).length = idxs.length) from
              List.length_map _ _, exceptList_refs_all refs refs' idxs.length href]
            exact c2
          · simpa [List.all_map, Function.comp, WireIndex.fromProto] using c3
          · rw [keysUnique_map_snd]
            exact c5

theorem wireStmtListFromOkValid : (ws : List WireStmt) → (ss : List Stmt) →
    WireStmt.listFromProto ws = Except.ok ss → Stmt.listValidB ss = true
  | [], _, h => by cases h; rfl
  | w :: rest, ss, h => by
    simp only [WireStmt.listFromProto] at h
    split at h
    · simp at h
    · split at h
      · simp at h
      · cases h
        rename_i x1 s' hs' x2 rest' hrest'
        simp [Stmt.listValidB, wireStmtFromOkValid w s' hs',
          wireStmtListFromOkValid rest rest' hrest']

end

mutual

theorem wireStmtOkIffWf : (w : WireStmt) → okB (WireStmt.fromProto w) = WireStmt.wfB w
  | WireStmt.load f i => rfl
  | WireStmt.store f i => rfl
  | WireStmt.intrinsic n ins outs => rfl
  | WireStmt.special n ps ins outs => rfl
  | WireStmt.constant c => by
    simp only [WireStmt.fromProto, WireStmt.wfB, ← wconst_okB c]
    cases WireConstant.fromProto c <;> rfl
  | WireStmt.block b => by
    simp only [WireStmt.fromProto, WireStmt.wfB, ← wireBlockOkIffWf b]
    cases WireBlock.fromProto b <;> rfl

theorem wireBlockOkIffWf : (w : WireBlock) → okB (WireBlock.fromProto w) = WireBlock.wfB w
  | WireBlock.mk n cm idxs cons decls refs stmts anns => by
    have hrefs : okB (exceptList WireRefinement.fromProto refs) =
        refs.all WireRefinement.wfB := by
      rw [exceptList_okB]
      exact all_congrB refs _ _ wref_okB
    have hl := wireStmtListOkIffWf stmts
    simp only [WireBlock.fromProto, WireBlock.wfB]
    split
    case isTrue hc =>
      rw [hc]
      cases he : exceptList WireRefinement.fromProto refs with
      | error e =>
        rw [he] at hrefs
        simp [okB, ← hrefs]
      | ok refs' =>
        rw [he] at hrefs
        cases hs : WireStmt.listFromProto stmts with
        | error e =>
          rw [hs] at hl
          simp [okB, ← hrefs, ← hl]
        | ok stmts' =>
          rw [hs] at hl
          simp [okB, ← hrefs, ← hl]
    case isFalse hc =>
      rw [Bool.not_eq_true] at hc
      simp [okB, hc]

theorem wireStmtListOkIffWf : (ws : List WireStmt) →
    okB (WireStmt.listFromProto ws) = WireStmt.listWfB ws
  | [] => rfl
  | w :: rest => by
    simp only [WireStmt.listFromProto, WireStmt.listWfB, ← wireStmtOkIffWf w,
      ← wireStmtListOkIffWf rest]
    cases WireStmt.fromProto w with
    | error e => rfl
    | ok s' =>
      cases WireStmt.listFromProto rest <;> rfl

end

theorem producesW_into (s : Stmt) :
    WireStmt.producesW (Stmt.intoProto s) = Stmt.produces s := by
  cases s <;> rfl

theorem all_from_map_into (refs : List Refinement) (env : List String) :
    ((refs.map Refinement.intoProto).all fun r => env.contains r.from_) =
      refs.all fun r => env.contains r.from_ := by
  induction refs with
  | nil => rfl
  | cons r t ih =>
    simp only [List.map_cons, List.all_cons]
    rw [ih]
    rfl

mutual

theorem stmtResolvesInto : (s : Stmt) → (env : List String) →
    WireStmt.resolvesW env (Stmt.intoProto s) = Stmt.resolvesB env s
  | Stmt.load l, env => rfl
  | Stmt.store st, env => rfl
  | Stmt.constant c, env => rfl
  | Stmt.intrinsic i, env => rfl
  | Stmt.special sp, env => rfl
  | Stmt.block b, env => by
    have hb := blockResolvesInto b env
    cases b with
    | mk n cm idxs cons decls refs stmts anns =>
      simp only [Stmt.intoProto, WireStmt.resolvesW, Stmt.resolvesB]
      rw [hb]
      simp only [Block.intoProto, WireBlock.refsW, Block.refs]
      rw [all_from_map_into]

theorem blockResolvesInto : (b : Block) → (env : List String) →
    WireBlock.resolvesW env (Block.intoProto b) = Block.resolvesB env b
  | Block.mk n cm idxs cons decls refs stmts anns, env => by
    simp only [Block.intoProto, WireBlock.resolvesW, Block.resolvesB]
    have hmap : ((refs.map Refinement.intoProto).map fun r => r.into) =
        refs.map fun r => r.into := by
      simp [List.map_map, Function.comp, Refinement.intoProto]
    rw [hmap, listResolvesInto stmts]

theorem listResolvesInto : (ss : List Stmt) → (env : List String) →
    WireStmt.listResolvesW env (Stmt.listIntoProto ss) = Stmt.listResolvesB env ss
  | [], env => rfl
  | s :: rest, env => by
    simp only [Stmt.listIntoProto, WireStmt.listResolvesW, Stmt.listResolvesB]
    rw [stmtResolvesInto s env, producesW_into s,
      listResolvesInto rest (env ++ Stmt.produces s)]

end

theorem wref_fromProto_from (w : WireRefinement) (r : Refinement)
    (h : WireRefinement.fromProto w = Except.ok r) : r.from_ = w.from_ := by
  unfold WireRefinement.fromProto at h
  split at h
  · simp at h
  · cases h; rfl

theorem wref_fromProto_into (w : WireRefinement) (r : Refinement)
    (h : WireRefinement.fromProto w = Except.ok r) : r.into = w.into := by
  unfold WireRefinement.fromProto at h
  split at h
  · simp at h
  · cases h; rfl

theorem exceptList_refs_from (l : List WireRefinement) (l' : List Refinement)
    (env : List String)
    (h : exceptList WireRefinement.fromProto l = Except.ok l') :
    (l'.all fun r => env.contains r.from_) = l.all fun w => env.contains w.from_ := by
  induction l generalizing l' with
  | nil =>
    simp only [exceptList] at h
    cases h; rfl
  | cons a t ih =>
    simp only [exceptList] at h
    split at h
    · simp at h
    · split at h
      · simp at h
      · cases h
        rename_i x1 b hb x2 bs hbs
        simp only [List.all_cons]
        rw [ih bs hbs, wref_fromProto_from a b hb]

theorem exceptList_refs_into (l : List WireRefinement) (l' : List Refinement)
    (h : exceptList WireRefinement.fromProto l = Except.ok l') :
    (l'.map fun r => r.into) = l.map fun w => w.into := by
  induction l generalizing l' with
  | nil =>
    simp only [exceptList] at h
    cases h; rfl
  | cons a t ih =>
    simp only [exceptList] at h
    split at h
    · simp at h
    · split at h
      · simp at h
      · cases h
        rename_i x1 b hb x2 bs hbs
        simp only [List.map_cons]
        rw [ih bs hbs, wref_fromProto_into a b hb]

theorem wconst_fromProto_name (w : WireConstant) (c : Constant)
    (h : WireConstant.fromProto w = Except.ok c) : c.name = w.name := by
  unfold WireConstant.fromProto at h
  split at h
  · cases h; rfl
  · cases h; rfl
  · simp at h

theorem wstmt_fromProto_produces (w : WireStmt) (s : Stmt)
    (h : WireStmt.fromProto w = Except.ok s) :
    Stmt.produces s = WireStmt.producesW w := by
  cases w with
  | load f i => cases h; rfl
  | store f i => cases h; rfl
  | intrinsic n ins outs => cases h; rfl
  | special n ps ins outs => cases h; rfl
  | constant c =>
    simp only [WireStmt.fromProto] at h
    split at h
    · simp at h
    · cases h
      rename_i x1 c' hc'
      simp [Stmt.produces, WireStmt.producesW, wconst_fromProto_name c c' hc']
  | block b =>
    simp only [WireStmt.fromProto] at h
    split at h
    · simp at h
    · cases h; rfl

theorem wblock_fromProto_refs_from (w : WireBlock) (b : Block)
    (h : WireBlock.fromProto w = Except.ok b) (env : List String) :
    ((Block.refs b).all fun r => env.contains r.from_) =
      (WireBlock.refsW w).all fun r => env.contains r.from_ := by
  cases w with
  | mk n cm idxs cons decls refs stmts anns =>
    simp only [WireBlock.fromProto] at h
    split at h
    case isFalse => simp at h
    case isTrue hc =>
      split at h
      · simp at h
      · split at h
        · simp at h
        · cases h
          rename_i x1 refs' href x2 stmts' hstmts
          simp only [Block.refs, WireBlock.refsW]
          exact exceptList_refs_from refs refs' env href

mutual

theorem wstmtResolvesFrom : (w : WireStmt) → (s : Stmt) →
    WireStmt.fromProto w = Except.ok s → (env : List String) →
    Stmt.resolvesB env s = WireStmt.resolvesW env w
  | WireStmt.load f i, _, h, env => by cases h; rfl
  | WireStmt.store f i, _, h, env => by cases h; rfl
  | WireStmt.intrinsic n ins outs, _, h, env => by cases h; rfl
  | WireStmt.special n ps ins outs, _, h, env => by cases h; rfl
  | WireStmt.constant c, s, h, env => by
    simp only [WireStmt.fromProto] at h
    split at h
    · simp at h
    · cases h; rfl
  | WireStmt.block b, s, h, env => by
    simp only [WireStmt.fromProto] at h
    split at h
    · simp at h
    · cases h
      rename_i x1 b' hb'
      simp only [Stmt.resolvesB, WireStmt.resolvesW]
      rw [wblock_fromProto_refs_from b b' hb' env, wblockResolvesFrom b b' hb' env]

theorem wblockResolvesFrom : (w : WireBlock) → (b : Block) →
    WireBlock.fromProto w = Except.ok b → (env : List String) →
    Block.resolvesB env b = WireBlock.resolvesW env w
  | WireBlock.mk n cm idxs cons decls refs stmts anns, b, h, env => by
    simp only [WireBlock.fromProto] at h
    split at h
    case isFalse => simp at h
    case isTrue hc =>
      split at h
      · simp at h
      · split at h
        · simp at h
        · cases h
          rename_i x1 refs' href x2 stmts' hstmts
          simp only [Block.resolvesB, WireBlock.resolvesW]
          rw [exceptList_refs_into refs refs' href]
          exact wstmtListResolvesFrom stmts stmts' hstmts _

theorem wstmtListResolvesFrom : (ws : List WireStmt) → (ss : List Stmt) →
    WireStmt.listFromProto ws = Except.ok ss → (env : List String) →
    Stmt.listResolvesB env ss = WireStmt.listResolvesW env ws
  | [], _, h, env => by cases h; rfl
  | w :: rest, ss, h, env => by
    simp only [WireStmt.listFromProto] at h
    split at h
    · simp at h
    · split at h
      · simp at h
      · cases h
        rename_i x1 s' hs' x2 rest' hrest'
        simp only [Stmt.listResolvesB, WireStmt.listResolvesW]
        rw [wstmtResolvesFrom w s' hs' env, wstmt_fromProto_produces w s' hs',
          wstmtListResolvesFrom rest rest' hrest']

end

theorem full_round_aux (b : Block) (h : Block.validFullB b = true) :
    FromProto (IntoProto b) = Except.ok b := by
  simp only [Block.validFullB, Bool.and_eq_true] at h
  simp only [FromProto, IntoProto]
  rw [blockResolvesInto b []]
  simp [h.2, blockRoundAux b h.1]

/-- C1: For every `Block` satisfying the §3 structural invariants —
modelled in full by `Block.validFullB`: the recursive structural checks
plus the lexical name-resolution invariant — `FromProto(IntoProto(b))`
succeeds and is structurally equal to `b`, field for field, recursively
through nested `Block` statements and every other statement kind. -/
theorem round_trip_law (b : Block) (h : Block.validFullB b = true) :
    FromProto (IntoProto b) = Except.ok b :=
  full_round_aux b h

theorem round_trip_law_witness :
    Block.validFullB (Block.mk "b" "" [⟨"i", 4, 1⟩] [⟨[1], 3⟩] []
      [⟨RefDir.in_, "p", "a", ⟨0, [1]⟩, ⟨0⟩, ""⟩, ⟨RefDir.out, "q", "o", ⟨0, [1]⟩, ⟨0⟩, "sum"⟩]
      [Stmt.load ⟨"a", "t"⟩, Stmt.store ⟨"t", "o"⟩,
       Stmt.block (Block.mk "n" "c" [] [] []
         [⟨RefDir.in_, "a", "x", ⟨0, []⟩, ⟨0⟩, ""⟩] [Stmt.load ⟨"x", "y"⟩] [])] []) = true ∧
    FromProto (IntoProto (Block.mk "b" "" [⟨"i", 4, 1⟩] [⟨[1], 3⟩] []
        [⟨RefDir.in_, "p", "a", ⟨0, [1]⟩, ⟨0⟩, ""⟩, ⟨RefDir.out, "q", "o", ⟨0, [1]⟩, ⟨0⟩, "sum"⟩]
        [Stmt.load ⟨"a", "t"⟩, Stmt.store ⟨"t", "o"⟩,
         Stmt.block (Block.mk "n" "c" [] [] []
           [⟨RefDir.in_, "a", "x", ⟨0, []⟩, ⟨0⟩, ""⟩] [Stmt.load ⟨"x", "y"⟩] [])] [])) =
      Except.ok (Block.mk "b" "" [⟨"i", 4, 1⟩] [⟨[1], 3⟩] []
        [⟨RefDir.in_, "p", "a", ⟨0, [1]⟩, ⟨0⟩, ""⟩, ⟨RefDir.out, "q", "o", ⟨0, [1]⟩, ⟨0⟩, "sum"⟩]
        [Stmt.load ⟨"a", "t"⟩, Stmt.store ⟨"t", "o"⟩,
         Stmt.block (Block.mk "n" "c" [] [] []
           [⟨RefDir.in_, "a", "x", ⟨0, []⟩, ⟨0⟩, ""⟩] [Stmt.load ⟨"x", "y"⟩] [])] []) :=
  ⟨by decide, round_trip_law _ (by decide)⟩

/-- C3: Decoding wire input succeeds exactly on well-formed input — it
fails with a decode error whenever the input violates a §3 structural
invariant, the lexical name-resolution invariant included — and whenever
it succeeds the resulting `Block` satisfies the §3 invariants in full,
never a partially-invalid tree. -/
theorem from_proto_validation :
    ∀ w : WireBlock,
      okB (FromProto w) = WireBlock.wfFullB w ∧
      (∀ b : Block, FromProto w = Except.ok b → Block.validFullB b = true) := by
  intro w
  refine ⟨?_, ?_⟩
  · simp only [FromProto, WireBlock.wfFullB]
    cases hr : WireBlock.resolvesW [] w with
    | false => simp [hr, okB]
    | true => simp [hr, wireBlockOkIffWf w]
  · intro b h
    simp only [FromProto] at h
    split at h
    · rename_i hres
      simp only [Block.validFullB, Bool.and_eq_true]
      refine ⟨wireBlockFromOkValid w b h, ?_⟩
      rw [wblockResolvesFrom w b h []]
      exact hres
    · simp at h

theorem from_proto_validation_witness :
    Block.validFullB (Block.mk "" "" [] [] [] [] [] []) = true :=
  (from_proto_validation (WireBlock.mk "" "" [] [] [] [] [] [])).2
    (Block.mk "" "" [] [] [] [] [] []) (by rfl)

/-- C9: The round trip — over blocks satisfying the full §3 validity —
also preserves the `Block` fields `name` and `comments`, at the root and
in every nested `Block` statement. -/
theorem round_trip_preserves_name_comments (b : Block) (h : Block.validFullB b = true) :
    ∀ b' : Block, FromProto (IntoProto b) = Except.ok b' →
      b'.allBlocks.map Block.name = b.allBlocks.map Block.name ∧
      b'.allBlocks.map Block.comments = b.allBlocks.map Block.comments := by
  intro b' hb'
  have hrt : FromProto (IntoProto b) = Except.ok b := full_round_aux b h
  rw [hrt] at hb'
  cases hb'
  exact ⟨rfl, rfl⟩

theorem round_trip_preserves_name_comments_witness :
    (Block.mk "outer" "oc" [] [] [] []
        [Stmt.block (Block.mk "inner" "ic" [] [] [] [] [] [])] []).allBlocks.map Block.name =
      (Block.mk "outer" "oc" [] [] [] []
        [Stmt.block (Block.mk "inner" "ic" [] [] [] [] [] [])] []).allBlocks.map Block.name ∧
    (Block.mk "outer" "oc" [] [] [] []
        [Stmt.block (Block.mk "inner" "ic" [] [] [] [] [] [])] []).allBlocks.map Block.comments =
      (Block.mk "outer" "oc" [] [] [] []
        [Stmt.block (Block.mk "inner" "ic" [] [] [] [] [] [])] []).allBlocks.map Block.comments :=
  round_trip_preserves_name_comments
    (Block.mk "outer" "oc" [] [] [] []
      [Stmt.block (Block.mk "inner" "ic" [] [] [] [] [] [])] []) (by decide)
    (Block.mk "outer" "oc" [] [] [] []
      [Stmt.block (Block.mk "inner" "ic" [] [] [] [] [] [])] [])
    (full_round_aux _ (by decide))
